import Mathlib

set_option autoImplicit false

/-!
Shallow embedding of the cache / retry core of the repository
(`codeguardian/utils/cache.py` and `codeguardian/utils/retry.py`).

Conventions of the embedding:
* Wall-clock time (`time.time()`) is a rational number passed in explicitly.
* The cache directory is a list of files; a file's modification time is a
  logical counter (`mtime : Nat`) that the store increments on every write,
  which captures exactly the ordering information `_get_cache_files` uses.
* Python `None` is the JSON value `JVal.jnull`; `Cache.get` returning Python
  `None` for a miss is `Option.none`.
* Exceptions are modelled with `Except`; an `except Exception` handler is a
  `match` on the `Except` value.
-/

/-- JSON-serializable Python scalar values (the payloads `json.dump` and
`json.load` round-trip).  Composite values are not needed by any claim;
every theorem is parametric in the payload. -/
inductive JVal where
  | jnull
  | jbool (b : Bool)
  | jnum (n : Int)
  | jstr (s : String)
deriving DecidableEq, Repr

/-- Contents of one on-disk cache file: either a well-formed
`{"data": ..., "expires_at": ...}` record or bytes that `json.load`
(or the subsequent dictionary lookups) fail on. -/
inductive FileContent where
  | valid (data : JVal) (expires_at : ℚ)
  | corrupt
deriving DecidableEq, Repr

/-- One file `<key>.json` in the cache directory, with its modification time
(the logical write counter). -/
structure CacheFile where
  key : String
  mtime : ℕ
  content : FileContent
deriving DecidableEq, Repr

/-- The attributes of a `Cache` instance that the claims depend on
(`self.ttl`, `self.max_size`).  `cache_dir` and `cleanup_interval` only name
the storage location and the background-sweep period and are not modelled. -/
structure Cache where
  ttl : ℚ
  max_size : ℕ
deriving DecidableEq, Repr

/-- The cache directory: the set of files plus the next logical mtime. -/
structure CacheState where
  files : List CacheFile
  nextMtime : ℕ
deriving DecidableEq, Repr

/-- The empty cache directory. -/
def CacheState.init : CacheState := ⟨[], 0⟩

/-- Look up the file named `<k>.json` (`cache_path.exists()` / `open`). -/
def findKey (k : String) : List CacheFile → Option CacheFile
  | [] => none
  | f :: fs => if f.key = k then some f else findKey k fs

/-- Remove the file at `<k>.json` (`cache_path.unlink()`). -/
def unlinkKey (k : String) (fs : List CacheFile) : List CacheFile :=
  fs.filter (fun f => !(f.key = k : Bool))

/-- Remove one specific file (`oldest_file.unlink()`): first occurrence. -/
def eraseFile (x : CacheFile) : List CacheFile → List CacheFile
  | [] => []
  | f :: fs => if f = x then fs else f :: eraseFile x fs

/-- The first file of minimal mtime among `f :: fs`: the head of
`sorted(self.cache_dir.glob("*.json"), key=lambda p: p.stat().st_mtime)`
(`Cache._get_cache_files`), i.e. the file `cache_files.pop(0)` removes. -/
def oldestFile (f : CacheFile) : List CacheFile → CacheFile
  | [] => f
  | g :: gs => if g.mtime < f.mtime then oldestFile g gs else oldestFile f gs

/-- One iteration of the eviction loop body: unlink the oldest file. -/
def removeOldest : List CacheFile → List CacheFile
  | [] => []
  | f :: fs => eraseFile (oldestFile f fs) (f :: fs)

/-- The eviction loop of `Cache.set`:
`while len(cache_files) >= self.max_size: cache_files.pop(0).unlink()`.
The source sorts the directory once and pops from the front; repeatedly
unlinking the current oldest file is the same sequence of unlinks, written
with a fuel argument (the loop removes one file per iteration, so
`fs.length` iterations always suffice). -/
def evictFuel (maxSize : ℕ) : ℕ → List CacheFile → List CacheFile
  | 0, fs => fs
  | fuel + 1, fs =>
    if 0 < maxSize ∧ maxSize ≤ fs.length then
      evictFuel maxSize fuel (removeOldest fs)
    else fs

/-- Eviction entry point (only reached when `self.max_size > 0`). -/
def evict (maxSize : ℕ) (fs : List CacheFile) : List CacheFile :=
  evictFuel maxSize fs.length fs

/-- `open(cache_path, "w")` followed by `json.dump`: create the file named
`<k>.json` or truncate the existing one; the write refreshes the mtime. -/
def writeFile (k : String) (nf : CacheFile) : List CacheFile → List CacheFile
  | [] => [nf]
  | f :: fs => if f.key = k then nf :: fs else f :: writeFile k nf fs

/-- `Cache.set(self, key, value)`: under the lock, evict oldest files while
the directory holds at least `max_size` of them (only when `max_size > 0`),
then write `{"data": value, "expires_at": time.time() + self.ttl}`. -/
def Cache.set (c : Cache) (s : CacheState) (now : ℚ) (k : String) (v : JVal) :
    CacheState :=
  let files₁ := if 0 < c.max_size then evict c.max_size s.files else s.files
  let nf : CacheFile := ⟨k, s.nextMtime, .valid v (now + c.ttl)⟩
  ⟨writeFile k nf files₁, s.nextMtime + 1⟩

/-- What `Cache.get` observes about the record for a key, including the race
in which the file vanishes between `cache_path.exists()` and `open`. -/
inductive ReadOutcome where
  | absent
  | vanished
  | corrupt
  | valid (data : JVal) (expires_at : ℚ)
deriving DecidableEq, Repr

/-- Python exceptions the body of `Cache.get` can raise. -/
inductive PyExc where
  | fileNotFound
  | jsonDecode
deriving DecidableEq, Repr

/-- `open(cache_path)` + `json.load(f)` + the two dictionary lookups:
raises `FileNotFoundError` if the file vanished, `JSONDecodeError`/`KeyError`
on corrupt contents, else yields `(entry["data"], entry["expires_at"])`. -/
def openEntry : ReadOutcome → Except PyExc (JVal × ℚ)
  | .absent => .error .fileNotFound
  | .vanished => .error .fileNotFound
  | .corrupt => .error .jsonDecode
  | .valid d e => .ok (d, e)

/-- The `try:` body of `Cache.get`: load the entry, delete it and miss when
`time.time() > entry["expires_at"]`, otherwise return `entry["data"]`. -/
def getBody (oc : ReadOutcome) (now : ℚ) : Except PyExc (Option JVal) :=
  match openEntry oc with
  | .error e => .error e
  | .ok (d, exp) => if now > exp then .ok none else .ok (some d)

/-- `Cache.get` as seen through a read outcome: the early `return None` when
the existence check fails, then the `try` body with its
`except Exception: ... return None` handler.  Total by construction: the
handler catches every failure of the body. -/
def getTotal (oc : ReadOutcome) (now : ℚ) : Option JVal :=
  match oc with
  | .absent => none
  | _ =>
    match getBody oc now with
    | .ok r => r
    | .error _ => none

/-- The read outcome of the directory state for key `k` (no vanish race). -/
def readOutcome (fs : List CacheFile) (k : String) : ReadOutcome :=
  match findKey k fs with
  | none => .absent
  | some f =>
    match f.content with
    | .corrupt => .corrupt
    | .valid d e => .valid d e

/-- `Cache.get(self, key)`: returns the cached value or `None`, and the
directory state after the call (the expired path unlinks the record). -/
def Cache.get (s : CacheState) (now : ℚ) (k : String) :
    Option JVal × CacheState :=
  match readOutcome s.files k with
  | .absent => (none, s)
  | .vanished => (none, s)
  | .corrupt => (none, s)
  | .valid d e =>
    if now > e then (none, ⟨unlinkKey k s.files, s.nextMtime⟩)
    else (some d, s)

/-! ### The memoizing decorator `cached(cache)` -/

/-- The key derivation of `cached(...).decorator.wrapper`:
`"_".join([func.__name__] + [str(a) for a in args]
          + [f"\x7bk\x7d:\x7bv\x7d" for k, v in sorted(kwargs.items())])`.
Positional arguments are taken already in their `str(...)` rendering;
keyword arguments are `(name, str(value))` pairs sorted by name (dictionary
keys are unique, so Python's tuple sort orders by name). -/
def sortKwargs : List (String × String) → List (String × String)
  | [] => []
  | p :: ps => insertKwarg p (sortKwargs ps)
where
  insertKwarg (p : String × String) :
      List (String × String) → List (String × String)
    | [] => [p]
    | q :: qs => if q.1 < p.1 then q :: insertKwarg p qs else p :: q :: qs

/-- Build the cache key string for a memoized call. -/
def deriveKey (fname : String) (args : List String)
    (kwargs : List (String × String)) : String :=
  String.intercalate "_"
    (fname :: (args ++ (sortKwargs kwargs).map (fun kv => kv.1 ++ ":" ++ kv.2)))

/-- The body of `cached(cache).decorator.wrapper`.  `op` is the single
invocation `func(*args, **kwargs)` the wrapper may perform (an `Except`,
since the operation may raise).  Returns the wrapper's result (or the
propagated exception), the directory state after the call, and how many
times the underlying operation was invoked (0 or 1).

The hit test is Python's `if result is not None`, which cannot tell a
cached `None` payload from a miss: a stored `jnull` falls through to the
invoke-and-set path. -/
def cachedWrapper (ε : Type) (c : Cache) (s : CacheState) (now : ℚ)
    (fname : String) (op : Except ε JVal) (args : List String)
    (kwargs : List (String × String)) :
    Except ε JVal × CacheState × ℕ :=
  let key := deriveKey fname args kwargs
  let res := Cache.get s now key
  match res.1 with
  | some r =>
    if r ≠ JVal.jnull then (.ok r, res.2, 0)
    else
      match op with
      | .ok v => (.ok v, Cache.set c res.2 now key v, 1)
      | .error e => (.error e, res.2, 1)
  | none =>
    match op with
    | .ok v => (.ok v, Cache.set c res.2 now key v, 1)
    | .error e => (.error e, res.2, 1)

/-! ### The retry decorator `retry_with_backoff` -/

/-- Exceptions a wrapped operation can raise: a `GithubException` with its
HTTP status and optional `X-RateLimit-Reset` header (already parsed to an
integer; a missing header reads as `0` through `headers.get(..., 0)`), or
any other exception, identified by a tag. -/
inductive PyErr where
  | github (status : ℕ) (resetHeader : Option ℕ)
  | other (tag : String)
deriving DecidableEq, Repr

/-- The rate-limit test of the wrapper:
`isinstance(e, GithubException) and e.status == 403` and then
`reset_time = int(e.headers.get("X-RateLimit-Reset", 0))` with
`if reset_time:` — yields the nonzero reset timestamp, or `none` when the
exponential-backoff path is taken instead. -/
def rateLimitReset : PyErr → Option ℕ
  | .github status hdr =>
    if status = 403 then
      match hdr.getD 0 with
      | 0 => none
      | r + 1 => some (r + 1)
    else none
  | .other _ => none

/-- The arguments of `retry_with_backoff` (the `RetryPolicy`): the
`exceptions` classifier is the predicate an exception must satisfy to be
caught by `except exceptions as e`. -/
structure RetryConfig where
  max_retries : ℕ
  base_delay : ℚ
  max_delay : ℚ
  exponential_base : ℚ
  retryable : PyErr → Bool

/-- One recorded `time.sleep` of the wrapper, tagged by which branch slept. -/
inductive SleepKind where
  | rateLimit (wait : ℚ)
  | backoff (delay : ℚ)
deriving DecidableEq, Repr

/-- How a run of the wrapper ends: the wrapped value, an uncaught
(non-retryable) exception, or `RetryError(f"Max retries (max_retries)
exceeded for func.__name__") from last_exception`. -/
inductive RetryOutcome (α : Type) where
  | ok (v : α)
  | uncaught (e : PyErr)
  | retryError (maxRetries : ℕ) (fname : String) (cause : Option PyErr)
deriving DecidableEq, Repr

/-- Observable trace of one call of the wrapper: how many times `func` was
invoked, the sleeps performed in order, and the final outcome. -/
structure RetryResult (α : Type) where
  invocations : ℕ
  sleeps : List SleepKind
  outcome : RetryOutcome α
deriving DecidableEq, Repr

/-- The `for attempt in range(max_retries + 1)` loop of
`retry_with_backoff(...).decorator.wrapper`.  `op i` is the outcome of the
`(i+1)`-th invocation of `func`, `clock i` is `time.time()` during the
handling of the `(i+1)`-th failure.  `attempt` counts completed iterations;
`remaining` is the number of loop iterations left (`max_retries + 1` at the
start, so the loop runs at most `max_retries + 1` times); `acc` holds the
sleeps so far in reverse; `last` is `last_exception`. -/
def runRetryAux (α : Type) (cfg : RetryConfig) (fname : String)
    (op : ℕ → Except PyErr α) (clock : ℕ → ℚ) :
    ℕ → ℕ → List SleepKind → Option PyErr → RetryResult α
  | attempt, 0, acc, last =>
    ⟨attempt, acc.reverse, .retryError cfg.max_retries fname last⟩
  | attempt, remaining + 1, acc, _ =>
    match op attempt with
    | .ok v => ⟨attempt + 1, acc.reverse, .ok v⟩
    | .error e =>
      if cfg.retryable e then
        match rateLimitReset e with
        | some resetTime =>
          runRetryAux α cfg fname op clock (attempt + 1) remaining
            (.rateLimit (max ((resetTime : ℚ) - clock attempt) 0) :: acc)
            (some e)
        | none =>
          if attempt < cfg.max_retries then
            runRetryAux α cfg fname op clock (attempt + 1) remaining
              (.backoff (min (cfg.base_delay * cfg.exponential_base ^ attempt)
                cfg.max_delay) :: acc)
              (some e)
          else ⟨attempt + 1, acc.reverse,
            .retryError cfg.max_retries fname (some e)⟩
      else ⟨attempt + 1, acc.reverse, .uncaught e⟩

/-- `retry_with_backoff(max_retries, base_delay, max_delay,
exponential_base, exceptions)(func)(*args, **kwargs)`. -/
def retryWithBackoff (α : Type) (cfg : RetryConfig) (fname : String)
    (op : ℕ → Except PyErr α) (clock : ℕ → ℚ) : RetryResult α :=
  runRetryAux α cfg fname op clock 0 (cfg.max_retries + 1) [] none

/-- The sleep the wrapper performs after the failure of invocation `i`,
when the run continues: the rate-limit wait when the failure carries a
nonzero reset timestamp, else the exponential-backoff delay. -/
def iterSleep (cfg : RetryConfig) (clock : ℕ → ℚ) (i : ℕ) (e : PyErr) :
    SleepKind :=
  match rateLimitReset e with
  | some resetTime => .rateLimit (max ((resetTime : ℚ) - clock i) 0)
  | none => .backoff (min (cfg.base_delay * cfg.exponential_base ^ i)
      cfg.max_delay)

/-- A sequence of sequential `set` calls on a fresh store, all at the same
wall-clock time (the scenario of the capacity-bound property). -/
def Cache.setMany (c : Cache) (now : ℚ) (kvs : List (String × JVal)) :
    CacheState :=
  kvs.foldl (fun t kv => Cache.set c t now kv.1 kv.2) CacheState.init

/-- The directory contents that a run of fresh sequential writes produces:
one valid record per pair, with consecutive logical mtimes from `m`. -/
def expectedFiles (now ttl : ℚ) : ℕ → List (String × JVal) → List CacheFile
  | _, [] => []
  | m, (k, v) :: rest =>
    ⟨k, m, .valid v (now + ttl)⟩ :: expectedFiles now ttl (m + 1) rest

/-! ### Helper lemmas about the directory primitives -/

theorem findKey_writeFile_self (k : String) (nf : CacheFile) (hk : nf.key = k)
    (fs : List CacheFile) : findKey k (writeFile k nf fs) = some nf := by
  induction fs with
  | nil => simp [writeFile, findKey, hk]
  | cons f fs ih =>
    by_cases h : f.key = k
    · simp [writeFile, h, findKey, hk]
    · simp [writeFile, h, findKey, ih]

theorem findKey_unlinkKey (k : String) (fs : List CacheFile) :
    findKey k (unlinkKey k fs) = none := by
  induction fs with
  | nil => simp [unlinkKey, findKey]
  | cons f fs ih =>
    by_cases h : f.key = k
    · simpa [unlinkKey, List.filter, h] using ih
    · simpa [unlinkKey, List.filter, h, findKey] using ih

/-- C1, auxiliary soundness half: whatever the directory holds, a `get`
that produces a payload read it from a live record of that key whose
`expires_at` has not passed. -/
theorem get_sound (s₀ : CacheState) (t : ℚ) (k0 : String) (d : JVal)
    (h : (Cache.get s₀ t k0).1 = some d) :
    ∃ f, findKey k0 s₀.files = some f ∧
      ∃ e, f.content = .valid d e ∧ ¬ t > e := by
  unfold Cache.get readOutcome at h
  cases hf : findKey k0 s₀.files with
  | none => rw [hf] at h; simp at h
  | some f =>
    rw [hf] at h
    cases hc : f.content with
    | corrupt => simp [hc] at h
    | valid d' e =>
      simp only [hc] at h
      by_cases he : t > e
      · simp [he] at h
      · simp [he] at h
        exact ⟨f, rfl, e, by rw [hc, h], he⟩

/-- C1: after `set(k, v)` on a store with ttl `t`, a `get(k)` strictly
before `now + t` returns `v`; a `get(k)` strictly after `now + t` returns a
miss and unlinks the record; and in general a `get` never returns a payload
whose `expires_at` has passed (it reads a live record). -/
theorem C1_set_get_expiry (c : Cache) (s : CacheState) (now t1 : ℚ)
    (k : String) (v : JVal) :
    (t1 < now + c.ttl →
      (Cache.get (Cache.set c s now k v) t1 k).1 = some v) ∧
    (t1 > now + c.ttl →
      (Cache.get (Cache.set c s now k v) t1 k).1 = none ∧
      findKey k (Cache.get (Cache.set c s now k v) t1 k).2.files = none) ∧
    (∀ s₀ t k0 d, (Cache.get s₀ t k0).1 = some d →
      ∃ f, findKey k0 s₀.files = some f ∧
        ∃ e, f.content = .valid d e ∧ ¬ t > e) := by
  have hfind : findKey k (Cache.set c s now k v).files =
      some ⟨k, s.nextMtime, .valid v (now + c.ttl)⟩ := by
    unfold Cache.set
    exact findKey_writeFile_self k _ rfl _
  refine ⟨?_, ?_, fun s₀ t k0 d h => get_sound s₀ t k0 d h⟩
  · intro hlt
    have hngt : ¬ t1 > now + c.ttl := by exact not_lt.mpr (le_of_lt hlt)
    simp [Cache.get, readOutcome, hfind, hngt]
  · intro hgt
    constructor
    · simp [Cache.get, readOutcome, hfind, hgt]
    · simp [Cache.get, readOutcome, hfind, hgt, findKey_unlinkKey]

/-- Witness for C1 at a concrete store and clock. -/
theorem C1_set_get_expiry_witness :
    ((0 : ℚ) < 0 + (3600 : ℚ) ∧
      (Cache.get (Cache.set ⟨3600, 1000⟩ CacheState.init 0 "k" (.jnum 7))
        0 "k").1 = some (.jnum 7)) ∧
    ((9999 : ℚ) > 0 + (3600 : ℚ) ∧
      (Cache.get (Cache.set ⟨3600, 1000⟩ CacheState.init 0 "k" (.jnum 7))
        9999 "k").1 = none) :=
  ⟨⟨by simp,
    (C1_set_get_expiry ⟨3600, 1000⟩ CacheState.init 0 0 "k" (.jnum 7)).1
      (by simp)⟩,
   ⟨by simp; decide,
    ((C1_set_get_expiry ⟨3600, 1000⟩ CacheState.init 0 9999 "k"
      (.jnum 7)).2.1 (by simp; decide)).1⟩⟩

/-- C10: for every on-disk state of a key's record — absent, vanished
between the existence check and the read, corrupt, or valid — `get` is a
total function that returns a miss on every failure path (the
`except Exception` handler turns every raised error into `None`), and the
state-level `Cache.get` agrees with this outcome-level description. -/
theorem C10_get_never_raises (now : ℚ) :
    getTotal .vanished now = none ∧
    getTotal .corrupt now = none ∧
    (∀ oc : ReadOutcome, getTotal oc now = none ∨
      ∃ d e, oc = .valid d e ∧ ¬ now > e ∧ getTotal oc now = some d) ∧
    (∀ (s : CacheState) (k : String),
      (Cache.get s now k).1 = getTotal (readOutcome s.files k) now) := by
  refine ⟨rfl, rfl, ?_, ?_⟩
  · intro oc
    cases oc with
    | absent => exact Or.inl rfl
    | vanished => exact Or.inl rfl
    | corrupt => exact Or.inl rfl
    | valid d e =>
      by_cases he : now > e
      · exact Or.inl (by simp [getTotal, getBody, openEntry, he])
      · exact Or.inr ⟨d, e, rfl, he,
          by simp [getTotal, getBody, openEntry, he]⟩
  · intro s k
    unfold Cache.get
    cases hoc : readOutcome s.files k with
    | absent => rfl
    | vanished => rfl
    | corrupt => rfl
    | valid d e =>
      by_cases he : now > e <;> simp [getTotal, getBody, openEntry, he]

/-! ### Eviction lemmas -/

theorem oldestFile_mem (fs : List CacheFile) :
    ∀ f : CacheFile, oldestFile f fs ∈ f :: fs := by
  induction fs with
  | nil => intro f; simp [oldestFile]
  | cons g gs ih =>
    intro f
    by_cases h : g.mtime < f.mtime
    · simp only [oldestFile, if_pos h]
      rcases List.mem_cons.mp (ih g) with h1 | h1
      · simp [h1]
      · simp [h1]
    · simp only [oldestFile, if_neg h]
      rcases List.mem_cons.mp (ih f) with h1 | h1
      · simp [h1]
      · simp [h1]

theorem oldestFile_min (fs : List CacheFile) :
    ∀ f : CacheFile, (oldestFile f fs).mtime ≤ f.mtime ∧
      ∀ g ∈ fs, (oldestFile f fs).mtime ≤ g.mtime := by
  induction fs with
  | nil => intro f; exact ⟨le_refl _, by simp⟩
  | cons g gs ih =>
    intro f
    by_cases h : g.mtime < f.mtime
    · simp only [oldestFile, if_pos h]
      obtain ⟨ih1, ih2⟩ := ih g
      refine ⟨le_trans ih1 (le_of_lt h), ?_⟩
      intro g' hg'
      rcases List.mem_cons.mp hg' with h1 | h1
      · rw [h1]; exact ih1
      · exact ih2 g' h1
    · simp only [oldestFile, if_neg h]
      obtain ⟨ih1, ih2⟩ := ih f
      refine ⟨ih1, ?_⟩
      intro g' hg'
      rcases List.mem_cons.mp hg' with h1 | h1
      · rw [h1]; exact le_trans ih1 (not_lt.mp h)
      · exact ih2 g' h1

theorem oldestFile_eq_head (fs : List CacheFile) :
    ∀ f : CacheFile, (∀ g ∈ fs, ¬ g.mtime < f.mtime) → oldestFile f fs = f := by
  induction fs with
  | nil => intro f _; rfl
  | cons g gs ih =>
    intro f h
    have hg : ¬ g.mtime < f.mtime := h g (List.mem_cons_self g gs)
    simp only [oldestFile, if_neg hg]
    exact ih f (fun g' hg' => h g' (List.mem_cons.mpr (Or.inr hg')))

theorem eraseFile_length_of_mem (x : CacheFile) :
    ∀ fs : List CacheFile, x ∈ fs →
      (eraseFile x fs).length + 1 = fs.length := by
  intro fs
  induction fs with
  | nil => intro h; simp at h
  | cons f fs ih =>
    intro h
    by_cases hf : f = x
    · simp [eraseFile, hf]
    · have hx : x ∈ fs := by
        rcases List.mem_cons.mp h with h1 | h1
        · exact absurd h1.symm hf
        · exact h1
      simp [eraseFile, hf, ih hx]

theorem removeOldest_length (fs : List CacheFile) (h : fs ≠ []) :
    (removeOldest fs).length + 1 = fs.length := by
  cases fs with
  | nil => exact absurd rfl h
  | cons f fs => exact eraseFile_length_of_mem _ _ (oldestFile_mem fs f)

theorem evictFuel_length (maxSize : ℕ) (hm : 0 < maxSize) :
    ∀ (fuel : ℕ) (fs : List CacheFile), fs.length ≤ fuel →
      (evictFuel maxSize fuel fs).length < maxSize := by
  intro fuel
  induction fuel with
  | zero =>
    intro fs hfs
    simp only [evictFuel]
    omega
  | succ fuel ih =>
    intro fs hfs
    by_cases hc : 0 < maxSize ∧ maxSize ≤ fs.length
    · have hne : fs ≠ [] := by
        intro hnil
        rw [hnil] at hc
        simp at hc
        omega
      have hlen := removeOldest_length fs hne
      have hle : (removeOldest fs).length ≤ fuel := by omega
      simpa [evictFuel, hc] using ih (removeOldest fs) hle
    · have hlt : ¬ maxSize ≤ fs.length := fun hle => hc ⟨hm, hle⟩
      simpa [evictFuel, hc] using Nat.lt_of_not_le hlt

theorem evictFuel_no_evict (maxSize fuel : ℕ) (fs : List CacheFile)
    (h : fs.length < maxSize) : evictFuel maxSize fuel fs = fs := by
  cases fuel with
  | zero => rfl
  | succ fuel =>
    have hc : ¬ (0 < maxSize ∧ maxSize ≤ fs.length) := by omega
    simp [evictFuel, hc]

theorem writeFile_length_le (k : String) (nf : CacheFile) :
    ∀ fs : List CacheFile, (writeFile k nf fs).length ≤ fs.length + 1 := by
  intro fs
  induction fs with
  | nil => simp [writeFile]
  | cons f fs ih =>
    by_cases h : f.key = k
    · simp [writeFile, h]
    · simp only [writeFile, if_neg h, List.length_cons]
      omega

theorem writeFile_of_findKey_none (k : String) (nf : CacheFile) :
    ∀ fs : List CacheFile, findKey k fs = none →
      writeFile k nf fs = fs ++ [nf] := by
  intro fs
  induction fs with
  | nil => intro _; rfl
  | cons f fs ih =>
    intro h
    by_cases hf : f.key = k
    · simp [findKey, hf] at h
    · simp only [findKey, if_neg hf] at h
      simp [writeFile, hf, ih h]

/-! ### Lemmas about sequences of fresh writes -/

theorem findKey_append (k : String) (fs gs : List CacheFile) :
    findKey k (fs ++ gs) =
      match findKey k fs with
      | some f => some f
      | none => findKey k gs := by
  induction fs with
  | nil => simp [findKey]
  | cons f fs ih =>
    by_cases h : f.key = k
    · simp [findKey, h]
    · simp [findKey, h, ih]

theorem expectedFiles_length (now ttl : ℚ) :
    ∀ (kvs : List (String × JVal)) (m : ℕ),
      (expectedFiles now ttl m kvs).length = kvs.length := by
  intro kvs
  induction kvs with
  | nil => intro m; rfl
  | cons kv rest ih =>
    intro m
    cases kv with
    | mk k v => simp [expectedFiles, ih]

theorem expectedFiles_mtime (now ttl : ℚ) :
    ∀ (kvs : List (String × JVal)) (m : ℕ),
      ∀ g ∈ expectedFiles now ttl m kvs, m ≤ g.mtime := by
  intro kvs
  induction kvs with
  | nil => intro m g hg; simp [expectedFiles] at hg
  | cons kv rest ih =>
    intro m g hg
    cases kv with
    | mk k v =>
      simp only [expectedFiles] at hg
      rcases List.mem_cons.mp hg with h1 | h1
      · rw [h1]
      · exact le_trans (Nat.le_succ m) (ih (m + 1) g h1)

theorem findKey_expectedFiles_none (now ttl : ℚ) (k : String) :
    ∀ (kvs : List (String × JVal)) (m : ℕ), k ∉ kvs.map Prod.fst →
      findKey k (expectedFiles now ttl m kvs) = none := by
  intro kvs
  induction kvs with
  | nil => intro m _; rfl
  | cons kv rest ih =>
    intro m hk
    cases kv with
    | mk k' v =>
      simp only [List.map_cons, List.mem_cons] at hk
      push_neg at hk
      have hne : k' ≠ k := fun h => hk.1 h.symm
      simp [expectedFiles, findKey, hne, ih (m + 1) hk.2]

theorem findKey_expectedFiles_some (now ttl : ℚ) (k : String) :
    ∀ (kvs : List (String × JVal)) (m : ℕ), k ∈ kvs.map Prod.fst →
      ∃ f, findKey k (expectedFiles now ttl m kvs) = some f := by
  intro kvs
  induction kvs with
  | nil => intro m h; simp at h
  | cons kv rest ih =>
    intro m hk
    cases kv with
    | mk k' v =>
      by_cases h : k' = k
      · refine ⟨⟨k', m, .valid v (now + ttl)⟩, ?_⟩
        simp [expectedFiles, findKey, h]
      · have hk' : k ∈ rest.map Prod.fst := by
          simp only [List.map_cons, List.mem_cons] at hk
          rcases hk with h1 | h1
          · exact absurd h1.symm h
          · exact h1
        obtain ⟨f, hf⟩ := ih (m + 1) hk'
        exact ⟨f, by simp [expectedFiles, findKey, h, hf]⟩

/-- A run of sequential `set` calls that stays strictly below capacity and
touches only fresh keys appends the expected records in write order. -/
theorem setFold_spec (c : Cache) (now : ℚ) :
    ∀ (kvs : List (String × JVal)) (s : CacheState),
      s.files.length + kvs.length ≤ c.max_size →
      (∀ p ∈ kvs, findKey p.1 s.files = none) →
      ((kvs.map Prod.fst).Nodup) →
      kvs.foldl (fun t kv => Cache.set c t now kv.1 kv.2) s =
        ⟨s.files ++ expectedFiles now c.ttl s.nextMtime kvs,
         s.nextMtime + kvs.length⟩ := by
  intro kvs
  induction kvs with
  | nil => intro s _ _ _; simp [expectedFiles]
  | cons kv rest ih =>
    intro s hcap hfresh hnodup
    cases kv with
    | mk k v =>
      have hlen : s.files.length < c.max_size := by
        simp only [List.length_cons] at hcap
        omega
      have hstep : Cache.set c s now k v =
          ⟨s.files ++ [⟨k, s.nextMtime, .valid v (now + c.ttl)⟩],
           s.nextMtime + 1⟩ := by
        unfold Cache.set
        have hkf : findKey k s.files = none :=
          hfresh (k, v) (List.mem_cons_self _ _)
        by_cases hms : 0 < c.max_size
        · simp only [if_pos hms, evict]
          rw [evictFuel_no_evict _ _ _ hlen,
            writeFile_of_findKey_none _ _ _ hkf]
        · simp only [if_neg hms]
          rw [writeFile_of_findKey_none _ _ _ hkf]
      have hknotin : k ∉ rest.map Prod.fst := by
        simp only [List.map_cons, List.nodup_cons] at hnodup
        exact hnodup.1
      have hfresh' : ∀ p ∈ rest,
          findKey p.1 (s.files ++ [⟨k, s.nextMtime,
            .valid v (now + c.ttl)⟩]) = none := by
        intro p hp
        have h1 : findKey p.1 s.files = none :=
          hfresh p (List.mem_cons.mpr (Or.inr hp))
        have h2 : p.1 ≠ k := by
          intro h
          exact hknotin (h ▸ List.mem_map.mpr ⟨p, hp, rfl⟩)
        have h3 : ¬ k = p.1 := fun hh => h2 hh.symm
        rw [findKey_append, h1]
        simp [findKey, h3]
      have hnodup' : (rest.map Prod.fst).Nodup := by
        simp only [List.map_cons, List.nodup_cons] at hnodup
        exact hnodup.2
      have hcap' : (s.files ++ [(⟨k, s.nextMtime,
          .valid v (now + c.ttl)⟩ : CacheFile)]).length + rest.length ≤
          c.max_size := by
        simp only [List.length_append, List.length_singleton]
        simp only [List.length_cons] at hcap
        omega
      simp only [List.foldl_cons]
      rw [hstep, ih _ hcap' hfresh' hnodup']
      simp only [expectedFiles, List.append_assoc, List.singleton_append,
        List.length_cons, CacheState.mk.injEq]
      exact ⟨trivial, by omega⟩

/-- The `(N+1)`-th fresh write on a store at capacity `N` evicts exactly the
oldest record and appends the new one. -/
theorem set_at_capacity (c : Cache) (now : ℚ) (hN : 0 < c.max_size)
    (k₀ : String) (v₀ : JVal) (mid : List (String × JVal))
    (hlen : ((k₀, v₀) :: mid).length = c.max_size)
    (kl : String) (vl : JVal)
    (hfresh : kl ∉ ((k₀, v₀) :: mid).map Prod.fst) :
    Cache.set c ⟨expectedFiles now c.ttl 0 ((k₀, v₀) :: mid), c.max_size⟩
        now kl vl =
      ⟨expectedFiles now c.ttl 1 mid ++
        [⟨kl, c.max_size, .valid vl (now + c.ttl)⟩], c.max_size + 1⟩ := by
  have hmidlen : (expectedFiles now c.ttl 1 mid).length = mid.length :=
    expectedFiles_length now c.ttl mid 1
  have hfs : expectedFiles now c.ttl 0 ((k₀, v₀) :: mid) =
      (⟨k₀, 0, .valid v₀ (now + c.ttl)⟩ : CacheFile) ::
        expectedFiles now c.ttl 1 mid := rfl
  have hfslen : (expectedFiles now c.ttl 0 ((k₀, v₀) :: mid)).length =
      c.max_size := by
    rw [expectedFiles_length]; exact hlen
  obtain ⟨n, hn⟩ : ∃ n, c.max_size = n + 1 := ⟨c.max_size - 1, by omega⟩
  have hremove : removeOldest (expectedFiles now c.ttl 0 ((k₀, v₀) :: mid)) =
      expectedFiles now c.ttl 1 mid := by
    rw [hfs]
    simp only [removeOldest]
    have hold : oldestFile (⟨k₀, 0, .valid v₀ (now + c.ttl)⟩ : CacheFile)
        (expectedFiles now c.ttl 1 mid) =
        ⟨k₀, 0, .valid v₀ (now + c.ttl)⟩ := by
      apply oldestFile_eq_head
      intro g _
      exact Nat.not_lt_zero g.mtime
    rw [hold]
    simp [eraseFile]
  have hevict : evict c.max_size
      (expectedFiles now c.ttl 0 ((k₀, v₀) :: mid)) =
      expectedFiles now c.ttl 1 mid := by
    unfold evict
    rw [hfslen, hn]
    simp only [evictFuel]
    rw [if_pos ⟨Nat.succ_pos n, le_of_eq (hfslen.trans hn).symm⟩, hremove]
    apply evictFuel_no_evict
    rw [hmidlen]
    simp only [List.length_cons] at hlen
    omega
  have hkl : findKey kl (expectedFiles now c.ttl 1 mid) = none := by
    apply findKey_expectedFiles_none
    intro hmem
    exact hfresh (by simp [hmem])
  simp only [Cache.set, if_pos hN, hevict]
  rw [writeFile_of_findKey_none _ _ _ hkl]

/-- C2: with `maxEntries = N > 0`, (a) after any `set` at most `N` records
remain, (b) the file the eviction loop unlinks is one of minimal mtime
(oldest last-modified first), and (c) after `N+1` sequential fresh `set`
calls with distinct keys exactly `N` records remain, the earliest-written
key is absent, and each of the `N` most recent keys is present. -/
theorem C2_capacity_bound (c : Cache) (hN : 0 < c.max_size) :
    (∀ (s : CacheState) (now : ℚ) (k : String) (v : JVal),
      (Cache.set c s now k v).files.length ≤ c.max_size) ∧
    (∀ (f : CacheFile) (fs : List CacheFile),
      oldestFile f fs ∈ f :: fs ∧
      (oldestFile f fs).mtime ≤ f.mtime ∧
      ∀ g ∈ fs, (oldestFile f fs).mtime ≤ g.mtime) ∧
    (∀ (now : ℚ) (k₀ kl : String) (v₀ vl : JVal)
        (mid : List (String × JVal)),
      ((k₀, v₀) :: mid).length = c.max_size →
      ((((k₀, v₀) :: mid) ++ [(kl, vl)]).map Prod.fst).Nodup →
      (Cache.setMany c now (((k₀, v₀) :: mid) ++ [(kl, vl)])).files.length =
        c.max_size ∧
      findKey k₀
        (Cache.setMany c now (((k₀, v₀) :: mid) ++ [(kl, vl)])).files =
        none ∧
      ∀ p ∈ mid ++ [(kl, vl)], ∃ f, findKey p.1
        (Cache.setMany c now (((k₀, v₀) :: mid) ++ [(kl, vl)])).files =
        some f) := by
  refine ⟨?_, ?_, ?_⟩
  · intro s now k v
    have h1 : (evict c.max_size s.files).length < c.max_size :=
      evictFuel_length c.max_size hN s.files.length s.files (le_refl _)
    have h2 := writeFile_length_le k
      ⟨k, s.nextMtime, .valid v (now + c.ttl)⟩ (evict c.max_size s.files)
    simp only [Cache.set, if_pos hN]
    omega
  · intro f fs
    obtain ⟨h1, h2⟩ := oldestFile_min fs f
    exact ⟨oldestFile_mem fs f, h1, h2⟩
  · intro now k₀ kl v₀ vl mid hlen hnodup
    have hmapsplit : ((((k₀, v₀) :: mid) ++ [(kl, vl)]).map Prod.fst) =
        (((k₀, v₀) :: mid).map Prod.fst) ++ [kl] := by simp
    rw [hmapsplit] at hnodup
    rw [List.nodup_append] at hnodup
    obtain ⟨hnodup₁, _, hdisj⟩ := hnodup
    have hklfresh : kl ∉ ((k₀, v₀) :: mid).map Prod.fst := by
      intro hmem
      exact hdisj hmem (List.mem_singleton_self kl)
    have hfold₁ : ((k₀, v₀) :: mid).foldl
        (fun t kv => Cache.set c t now kv.1 kv.2) CacheState.init =
        ⟨expectedFiles now c.ttl 0 ((k₀, v₀) :: mid), c.max_size⟩ := by
      have := setFold_spec c now ((k₀, v₀) :: mid) CacheState.init
        (by simpa [CacheState.init] using le_of_eq hlen)
        (by intro p _; rfl) hnodup₁
      simpa [CacheState.init, hlen] using this
    have hstate : Cache.setMany c now (((k₀, v₀) :: mid) ++ [(kl, vl)]) =
        ⟨expectedFiles now c.ttl 1 mid ++
          [⟨kl, c.max_size, .valid vl (now + c.ttl)⟩], c.max_size + 1⟩ := by
      unfold Cache.setMany
      rw [List.foldl_append, hfold₁]
      simp only [List.foldl_cons, List.foldl_nil]
      exact set_at_capacity c now hN k₀ v₀ mid hlen kl vl hklfresh
    rw [hstate]
    have hk₀mid : k₀ ∉ mid.map Prod.fst := by
      simp only [List.map_cons, List.nodup_cons] at hnodup₁
      exact hnodup₁.1
    refine ⟨?_, ?_, ?_⟩
    · simp [expectedFiles_length]
      simp only [List.length_cons] at hlen
      omega
    · rw [findKey_append,
        findKey_expectedFiles_none now c.ttl k₀ mid 1 hk₀mid]
      have hk₀kl : ¬ kl = k₀ := by
        intro h
        exact hklfresh (by simp [h])
      simp [findKey, hk₀kl]
    · intro p hp
      rcases List.mem_append.mp hp with hpm | hpl
      · obtain ⟨f, hf⟩ := findKey_expectedFiles_some now c.ttl p.1 mid 1
          (List.mem_map.mpr ⟨p, hpm, rfl⟩)
        exact ⟨f, by rw [findKey_append, hf]⟩
      · have hpe : p = (kl, vl) := List.mem_singleton.mp hpl
        subst hpe
        have hklmid : kl ∉ mid.map Prod.fst := by
          intro hmem
          exact hklfresh (by simp [hmem])
        refine ⟨⟨kl, c.max_size, .valid vl (now + c.ttl)⟩, ?_⟩
        rw [findKey_append,
          findKey_expectedFiles_none now c.ttl kl mid 1 hklmid]
        simp [findKey]

/-- Witness for C2 at `maxEntries = 2` and three distinct keys. -/
theorem C2_capacity_bound_witness :
    0 < (⟨1, 2⟩ : Cache).max_size ∧
    ((("a", JVal.jnum 1) :: [("b", JVal.jnum 2)]).length =
      (⟨1, 2⟩ : Cache).max_size) ∧
    (((("a", JVal.jnum 1) :: [("b", JVal.jnum 2)]) ++
      [("c", JVal.jnum 3)]).map Prod.fst).Nodup ∧
    findKey "a" (Cache.setMany ⟨1, 2⟩ 0 ((("a", JVal.jnum 1) ::
      [("b", JVal.jnum 2)]) ++ [("c", JVal.jnum 3)])).files = none :=
  ⟨by decide, by decide, by decide,
    ((C2_capacity_bound ⟨1, 2⟩ (by decide)).2.2 0 "a" "c" (JVal.jnum 1)
      (JVal.jnum 3) [("b", JVal.jnum 2)] (by decide) (by decide)).2.1⟩

/-! ### Membership lemmas for the write path -/

theorem findKey_eq_none_iff (k : String) (fs : List CacheFile) :
    findKey k fs = none ↔ ∀ g ∈ fs, g.key ≠ k := by
  induction fs with
  | nil => simp [findKey]
  | cons f fs ih =>
    by_cases h : f.key = k
    · simp [findKey, h]
    · simp [findKey, h, ih]

theorem writeFile_mem (k : String) (nf : CacheFile) :
    ∀ (fs : List CacheFile) (g : CacheFile),
      g ∈ writeFile k nf fs → g = nf ∨ g ∈ fs := by
  intro fs
  induction fs with
  | nil => intro g hg; simp [writeFile] at hg; exact Or.inl hg
  | cons f fs ih =>
    intro g hg
    by_cases h : f.key = k
    · simp only [writeFile, if_pos h] at hg
      rcases List.mem_cons.mp hg with h1 | h1
      · exact Or.inl h1
      · exact Or.inr (List.mem_cons.mpr (Or.inr h1))
    · simp only [writeFile, if_neg h] at hg
      rcases List.mem_cons.mp hg with h1 | h1
      · exact Or.inr (List.mem_cons.mpr (Or.inl h1))
      · rcases ih g h1 with h2 | h2
        · exact Or.inl h2
        · exact Or.inr (List.mem_cons.mpr (Or.inr h2))

theorem eraseFile_subset (x : CacheFile) :
    ∀ (fs : List CacheFile) (g : CacheFile), g ∈ eraseFile x fs → g ∈ fs := by
  intro fs
  induction fs with
  | nil => intro g hg; simp [eraseFile] at hg
  | cons f fs ih =>
    intro g hg
    by_cases h : f = x
    · simp only [eraseFile, if_pos h] at hg
      exact List.mem_cons.mpr (Or.inr hg)
    · simp only [eraseFile, if_neg h] at hg
      rcases List.mem_cons.mp hg with h1 | h1
      · exact List.mem_cons.mpr (Or.inl h1)
      · exact List.mem_cons.mpr (Or.inr (ih g h1))

theorem removeOldest_subset :
    ∀ (fs : List CacheFile) (g : CacheFile), g ∈ removeOldest fs → g ∈ fs := by
  intro fs g hg
  cases fs with
  | nil => simp [removeOldest] at hg
  | cons f fs => exact eraseFile_subset _ _ g hg

theorem evictFuel_subset (maxSize : ℕ) :
    ∀ (fuel : ℕ) (fs : List CacheFile) (g : CacheFile),
      g ∈ evictFuel maxSize fuel fs → g ∈ fs := by
  intro fuel
  induction fuel with
  | zero => intro fs g hg; exact hg
  | succ fuel ih =>
    intro fs g hg
    by_cases hc : 0 < maxSize ∧ maxSize ≤ fs.length
    · simp only [evictFuel, if_pos hc] at hg
      exact removeOldest_subset fs g (ih (removeOldest fs) g hg)
    · simpa [evictFuel, hc] using hg

/-- A `set` of key `k` leaves every other key that was absent absent
(eviction only removes files; the write only adds key `k`). -/
theorem findKey_set_other (c : Cache) (s : CacheState) (now : ℚ)
    (k : String) (v : JVal) (k' : String) (hne : k' ≠ k)
    (h : findKey k' s.files = none) :
    findKey k' (Cache.set c s now k v).files = none := by
  rw [findKey_eq_none_iff]
  rw [findKey_eq_none_iff] at h
  intro g hg
  simp only [Cache.set] at hg
  rcases writeFile_mem _ _ _ g hg with hgnf | hg'
  · rw [hgnf]
    exact fun hh => hne hh.symm
  · by_cases hms : 0 < c.max_size
    · simp only [if_pos hms] at hg'
      exact h g (evictFuel_subset _ _ _ g hg')
    · simp only [if_neg hms] at hg'
      exact h g hg'

/-- A `get` of a key with no record is a miss and leaves the state alone. -/
theorem get_of_findKey_none (s : CacheState) (now : ℚ) (k : String)
    (h : findKey k s.files = none) : Cache.get s now k = (none, s) := by
  simp [Cache.get, readOutcome, h]

/-- A `get` of a key just written, at the write's own wall-clock time,
returns the written payload (the record expires only in the future). -/
theorem get_of_set_same (c : Cache) (s : CacheState) (now : ℚ) (k : String)
    (v : JVal) (httl : 0 ≤ c.ttl) :
    Cache.get (Cache.set c s now k v) now k =
      (some v, Cache.set c s now k v) := by
  have hfind : findKey k (Cache.set c s now k v).files =
      some ⟨k, s.nextMtime, .valid v (now + c.ttl)⟩ := by
    unfold Cache.set
    exact findKey_writeFile_self k _ rfl _
  have hngt : ¬ now > now + c.ttl := not_lt.mpr (le_add_of_nonneg_right httl)
  simp [Cache.get, readOutcome, hfind, hngt]

/-- C7 (amended): a memoized pure operation whose result is not null, called
twice with identical arguments on a store whose ttl is nonnegative and which
does not yet hold the derived key, is invoked exactly once — the second call
is a hit that performs no invocation and returns the cached value; and a
further call with arguments whose derived key differs (and is also fresh)
invokes the operation again.  (The unamended claim fails for null results
and for distinct arguments whose renderings collide, see the
counterexample.) -/
theorem C7_memoize_once_amended (ε : Type) (c : Cache) (s : CacheState)
    (now : ℚ) (fname : String) (args args2 : List String)
    (kwargs kwargs2 : List (String × String)) (v : JVal)
    (op2 : Except ε JVal)
    (hv : v ≠ .jnull) (httl : 0 ≤ c.ttl)
    (hfresh : findKey (deriveKey fname args kwargs) s.files = none) :
    (cachedWrapper ε c s now fname (.ok v) args kwargs).2.2 = 1 ∧
    (cachedWrapper ε c (cachedWrapper ε c s now fname
      (.ok v) args kwargs).2.1 now fname (.ok v) args kwargs).2.2 = 0 ∧
    (cachedWrapper ε c (cachedWrapper ε c s now fname
      (.ok v) args kwargs).2.1 now fname (.ok v) args kwargs).1 = .ok v ∧
    (deriveKey fname args2 kwargs2 ≠ deriveKey fname args kwargs →
      findKey (deriveKey fname args2 kwargs2) s.files = none →
      (cachedWrapper ε c (cachedWrapper ε c s now fname
        (.ok v) args kwargs).2.1 now fname op2 args2 kwargs2).2.2 = 1) := by
  have h1 : cachedWrapper ε c s now fname (.ok v) args kwargs =
      (.ok v, Cache.set c s now (deriveKey fname args kwargs) v, 1) := by
    simp [cachedWrapper, get_of_findKey_none s now _ hfresh]
  have hget2 := get_of_set_same c s now (deriveKey fname args kwargs) v httl
  have h2 : cachedWrapper ε c
      (Cache.set c s now (deriveKey fname args kwargs) v) now fname
      (.ok v) args kwargs =
      (.ok v, Cache.set c s now (deriveKey fname args kwargs) v, 0) := by
    simp [cachedWrapper, hget2, hv]
  refine ⟨by rw [h1], by rw [h1]; rw [h2], by rw [h1]; rw [h2], ?_⟩
  intro hne2 hfresh2
  have hkey2 : findKey (deriveKey fname args2 kwargs2)
      (Cache.set c s now (deriveKey fname args kwargs) v).files = none :=
    findKey_set_other c s now _ v _ hne2 hfresh2
  rw [h1]
  cases op2 with
  | ok w => simp [cachedWrapper, get_of_findKey_none _ now _ hkey2]
  | error e => simp [cachedWrapper, get_of_findKey_none _ now _ hkey2]

/-- Witness for the amended C7 at a concrete store and operation. -/
theorem C7_memoize_once_amended_witness :
    (JVal.jstr "r" ≠ JVal.jnull) ∧ ((0 : ℚ) ≤ (3600 : ℚ)) ∧
    (findKey (deriveKey "f" ["x"] []) CacheState.init.files = none) ∧
    ((cachedWrapper PyExc ⟨3600, 1000⟩ CacheState.init 0 "f"
      (.ok (.jstr "r")) ["x"] []).2.2 = 1) ∧
    ((cachedWrapper PyExc ⟨3600, 1000⟩ (cachedWrapper PyExc ⟨3600, 1000⟩
      CacheState.init 0 "f" (.ok (.jstr "r")) ["x"] []).2.1 0 "f"
      (.ok (.jstr "r")) ["x"] []).2.2 = 0) :=
  ⟨by decide, by decide, by decide,
   (C7_memoize_once_amended PyExc ⟨3600, 1000⟩ CacheState.init 0 "f"
     ["x"] ["y"] [] [] (.jstr "r") (.ok (.jstr "q"))
     (by decide) (by decide) (by decide)).1,
   (C7_memoize_once_amended PyExc ⟨3600, 1000⟩ CacheState.init 0 "f"
     ["x"] ["y"] [] [] (.jstr "r") (.ok (.jstr "q"))
     (by decide) (by decide) (by decide)).2.1⟩

/-- C7 fails as stated: (left) a pure operation returning null is invoked
again by the second identical call — the wrapper's `is not None` hit test
reads the cached null as a miss; (right) a call with different arguments
(`"a_b"` vs `"a", "b"`) does NOT invoke the operation again — the colliding
derived key makes it a hit that returns the other call's cached value. -/
theorem C7_memoize_once_counterexample :
    ((cachedWrapper PyExc ⟨3600, 1000⟩ CacheState.init 0 "f"
        (.ok .jnull) [] []).2.2 = 1 ∧
     (cachedWrapper PyExc ⟨3600, 1000⟩
        (cachedWrapper PyExc ⟨3600, 1000⟩ CacheState.init 0 "f"
          (.ok .jnull) [] []).2.1 0 "f" (.ok .jnull) [] []).2.2 = 1) ∧
    ((cachedWrapper PyExc ⟨3600, 1000⟩
        (cachedWrapper PyExc ⟨3600, 1000⟩ CacheState.init 0 "f"
          (.ok (.jstr "r")) ["a_b"] []).2.1 0 "f" (.ok (.jstr "q"))
        ["a", "b"] []).2.2 = 0 ∧
     (cachedWrapper PyExc ⟨3600, 1000⟩
        (cachedWrapper PyExc ⟨3600, 1000⟩ CacheState.init 0 "f"
          (.ok (.jstr "r")) ["a_b"] []).2.1 0 "f" (.ok (.jstr "q"))
        ["a", "b"] []).1 = .ok (.jstr "r")) := by
  have hfnull : cachedWrapper PyExc ⟨3600, 1000⟩ CacheState.init 0 "f"
      (.ok .jnull) [] [] =
      (.ok .jnull, Cache.set ⟨3600, 1000⟩ CacheState.init 0
        (deriveKey "f" [] []) .jnull, 1) := by
    simp [cachedWrapper,
      get_of_findKey_none CacheState.init 0 (deriveKey "f" [] [])
        (by decide)]
  have hgetnull := get_of_set_same ⟨3600, 1000⟩ CacheState.init 0
    (deriveKey "f" [] []) .jnull (by decide)
  have hkeys : deriveKey "f" ["a", "b"] [] = deriveKey "f" ["a_b"] [] := by
    decide
  have hr : cachedWrapper PyExc ⟨3600, 1000⟩ CacheState.init 0 "f"
      (.ok (.jstr "r")) ["a_b"] [] =
      (.ok (.jstr "r"), Cache.set ⟨3600, 1000⟩ CacheState.init 0
        (deriveKey "f" ["a_b"] []) (.jstr "r"), 1) := by
    simp [cachedWrapper,
      get_of_findKey_none CacheState.init 0 (deriveKey "f" ["a_b"] [])
        (by decide)]
  have hgetr : Cache.get (Cache.set ⟨3600, 1000⟩ CacheState.init 0
      (deriveKey "f" ["a_b"] []) (.jstr "r")) 0
      (deriveKey "f" ["a", "b"] []) =
      (some (.jstr "r"), Cache.set ⟨3600, 1000⟩ CacheState.init 0
        (deriveKey "f" ["a_b"] []) (.jstr "r")) := by
    rw [hkeys]
    exact get_of_set_same ⟨3600, 1000⟩ CacheState.init 0
      (deriveKey "f" ["a_b"] []) (.jstr "r") (by decide)
  refine ⟨⟨?_, ?_⟩, ?_, ?_⟩
  · rw [hfnull]
  · rw [hfnull]
    simp [cachedWrapper, hgetnull]
  · rw [hr]
    simp [cachedWrapper, hgetr]
  · rw [hr]
    simp [cachedWrapper, hgetr]

/-- C8: the derived key is not injective in the arguments — the rendering
`"_".join(...)` maps the distinct argument lists `["a_b"]` and
`["a", "b"]` of the same operation to the same key `"f_a_b"`. -/
theorem C8_key_collision :
    deriveKey "f" ["a_b"] [] = "f_a_b" ∧
    deriveKey "f" ["a", "b"] [] = "f_a_b" ∧
    (["a_b"] : List String) ≠ ["a", "b"] := by
  refine ⟨?_, ?_, ?_⟩ <;> decide

/-- C9: on a genuine miss the wrapper invokes the operation exactly once
and, on success, stores the result under the derived key and returns it;
if the operation raises, the failure propagates unmodified and the state
is exactly the post-`get` state — no cache write happens. -/
theorem C9_miss_invoke_store (ε : Type) (c : Cache) (s : CacheState)
    (now : ℚ) (fname : String) (args : List String)
    (kwargs : List (String × String))
    (hmiss : (Cache.get s now (deriveKey fname args kwargs)).1 = none) :
    (∀ v : JVal, cachedWrapper ε c s now fname (.ok v) args kwargs =
      (.ok v,
       Cache.set c (Cache.get s now (deriveKey fname args kwargs)).2 now
         (deriveKey fname args kwargs) v, 1)) ∧
    (∀ e : ε, cachedWrapper ε c s now fname (.error e) args kwargs =
      (.error e, (Cache.get s now (deriveKey fname args kwargs)).2, 1)) := by
  constructor
  · intro v
    simp [cachedWrapper, hmiss]
  · intro e
    simp [cachedWrapper, hmiss]

/-- Witness for C9 with a raising operation on an empty store. -/
theorem C9_miss_invoke_store_witness :
    ((Cache.get CacheState.init 0 (deriveKey "g" [] [])).1 = none) ∧
    (cachedWrapper PyExc ⟨3600, 1000⟩ CacheState.init 0 "g"
      (.error PyExc.jsonDecode) [] [] =
      (.error PyExc.jsonDecode,
       (Cache.get CacheState.init 0 (deriveKey "g" [] [])).2, 1)) :=
  ⟨by decide,
   (C9_miss_invoke_store PyExc ⟨3600, 1000⟩ CacheState.init 0 "g" [] []
     (by decide)).2 PyExc.jsonDecode⟩

/-! ### Retry loop lemmas -/

/-- When every invocation fails with a classified (retryable) error, the
loop runs all its iterations and ends in the `RetryError` raise, wrapping
the failure of the last invocation. -/
theorem runRetryAux_allFail (α : Type) (cfg : RetryConfig) (fname : String)
    (op : ℕ → Except PyErr α) (clock : ℕ → ℚ) (e : ℕ → PyErr)
    (hop : ∀ j, op j = .error (e j))
    (hret : ∀ j, cfg.retryable (e j) = true) :
    ∀ (remaining attempt : ℕ) (acc : List SleepKind) (last : Option PyErr),
      attempt + remaining = cfg.max_retries + 1 →
      (remaining = 0 → last = some (e (attempt - 1))) →
      (runRetryAux α cfg fname op clock attempt remaining acc
        last).invocations = cfg.max_retries + 1 ∧
      (runRetryAux α cfg fname op clock attempt remaining acc last).outcome =
        .retryError cfg.max_retries fname (some (e cfg.max_retries)) := by
  intro remaining
  induction remaining with
  | zero =>
    intro attempt acc last htot hlast
    have h1 : attempt = cfg.max_retries + 1 := by omega
    rw [hlast rfl, h1]
    simp [runRetryAux]
  | succ r ih =>
    intro attempt acc last htot hlast
    simp only [runRetryAux, hop attempt, hret attempt, if_true]
    cases hrl : rateLimitReset (e attempt) with
    | some resetTime =>
      exact ih (attempt + 1) _ (some (e attempt)) (by omega)
        (fun _ => by simp)
    | none =>
      by_cases hlt : attempt < cfg.max_retries
      · simp only [if_pos hlt]
        exact ih (attempt + 1) _ (some (e attempt)) (by omega)
          (fun _ => by simp)
      · simp only [if_neg hlt]
        have hattempt : attempt = cfg.max_retries := by omega
        rw [hattempt]
        simp

/-- C3: an operation that fails with a classifier-matching error on every
attempt is invoked exactly `maxRetries + 1` times and the caller receives
`RetryError` wrapping the last underlying failure and naming the wrapped
operation. -/
theorem C3_retry_exhaustion (α : Type) (cfg : RetryConfig) (fname : String)
    (op : ℕ → Except PyErr α) (clock : ℕ → ℚ) (e : ℕ → PyErr)
    (hop : ∀ j, op j = .error (e j))
    (hret : ∀ j, cfg.retryable (e j) = true) :
    (retryWithBackoff α cfg fname op clock).invocations =
      cfg.max_retries + 1 ∧
    (retryWithBackoff α cfg fname op clock).outcome =
      .retryError cfg.max_retries fname (some (e cfg.max_retries)) := by
  unfold retryWithBackoff
  exact runRetryAux_allFail α cfg fname op clock e hop hret
    (cfg.max_retries + 1) 0 [] none (by omega)
    (fun h => absurd h (Nat.succ_ne_zero _))

/-- Witness for C3 with `maxRetries = 2` and an always-failing operation. -/
theorem C3_retry_exhaustion_witness :
    (retryWithBackoff ℕ ⟨2, 1, 60, 2, fun _ => true⟩ "f"
      (fun _ => .error (.other "boom")) (fun _ => 0)).invocations = 3 ∧
    (retryWithBackoff ℕ ⟨2, 1, 60, 2, fun _ => true⟩ "f"
      (fun _ => .error (.other "boom")) (fun _ => 0)).outcome =
      .retryError 2 "f" (some (.other "boom")) :=
  C3_retry_exhaustion ℕ ⟨2, 1, 60, 2, fun _ => true⟩ "f"
    (fun _ => .error (.other "boom")) (fun _ => 0)
    (fun _ => .other "boom") (fun _ => rfl) (fun _ => rfl)

/-- The sleeps accumulator only prepends: a run started with accumulator
`acc` produces `acc.reverse` followed by the sleeps of the run started
empty. -/
theorem runRetryAux_sleeps_acc (α : Type) (cfg : RetryConfig)
    (fname : String) (op : ℕ → Except PyErr α) (clock : ℕ → ℚ) :
    ∀ (remaining attempt : ℕ) (acc : List SleepKind) (last : Option PyErr),
      (runRetryAux α cfg fname op clock attempt remaining acc last).sleeps =
        acc.reverse ++
          (runRetryAux α cfg fname op clock attempt remaining []
            last).sleeps := by
  intro remaining
  induction remaining with
  | zero => intro attempt acc last; simp [runRetryAux]
  | succ r ih =>
    intro attempt acc last
    cases hop : op attempt with
    | ok v => simp [runRetryAux, hop]
    | error e =>
      by_cases hr : cfg.retryable e
      · cases hrl : rateLimitReset e with
        | some resetTime =>
          simp only [runRetryAux, hop, hrl, hr, if_true]
          rw [ih (attempt + 1)
              (SleepKind.rateLimit (max ((resetTime : ℚ) - clock attempt) 0)
                :: acc) (some e),
            ih (attempt + 1)
              [SleepKind.rateLimit (max ((resetTime : ℚ) - clock attempt) 0)]
              (some e)]
          simp
        | none =>
          by_cases hlt : attempt < cfg.max_retries
          · simp only [runRetryAux, hop, hrl, hr, if_true, if_pos hlt]
            rw [ih (attempt + 1)
                (SleepKind.backoff (min (cfg.base_delay *
                  cfg.exponential_base ^ attempt) cfg.max_delay) :: acc)
                (some e),
              ih (attempt + 1)
                [SleepKind.backoff (min (cfg.base_delay *
                  cfg.exponential_base ^ attempt) cfg.max_delay)] (some e)]
            simp
          · simp [runRetryAux, hop, hrl, hr, if_neg hlt]
      · simp [runRetryAux, hop, hr]

/-- One continuing iteration contributes exactly one sleep — the
rate-limit wait or the backoff delay of that attempt — at the head of the
remaining trace. -/
theorem runRetryAux_sleeps_cons (α : Type) (cfg : RetryConfig)
    (fname : String) (op : ℕ → Except PyErr α) (clock : ℕ → ℚ)
    (attempt r : ℕ) (last : Option PyErr) (e : PyErr)
    (hop : op attempt = .error e) (hr : cfg.retryable e = true)
    (hcont : rateLimitReset e ≠ none ∨ attempt < cfg.max_retries) :
    (runRetryAux α cfg fname op clock attempt (r + 1) [] last).sleeps =
      iterSleep cfg clock attempt e ::
        (runRetryAux α cfg fname op clock (attempt + 1) r []
          (some e)).sleeps := by
  cases hrl : rateLimitReset e with
  | some resetTime =>
    simp only [runRetryAux, hop, hr, if_true, hrl]
    rw [runRetryAux_sleeps_acc α cfg fname op clock r (attempt + 1)
      [SleepKind.rateLimit (max ((resetTime : ℚ) - clock attempt) 0)]
      (some e)]
    simp [iterSleep, hrl]
  | none =>
    have hlt : attempt < cfg.max_retries := by
      rcases hcont with h | h
      · exact absurd hrl h
      · exact h
    simp only [runRetryAux, hop, hr, if_true, hrl, if_pos hlt]
    rw [runRetryAux_sleeps_acc α cfg fname op clock r (attempt + 1)
      [SleepKind.backoff (min (cfg.base_delay *
        cfg.exponential_base ^ attempt) cfg.max_delay)] (some e)]
    simp [iterSleep, hrl]

/-- Position `i` of the sleep trace is the sleep of attempt `i`, as long as
attempts up to `i` all fail retryably and keep the loop going. -/
theorem retry_sleep_trace (α : Type) (cfg : RetryConfig) (fname : String)
    (op : ℕ → Except PyErr α) (clock : ℕ → ℚ) :
    ∀ (i attempt r : ℕ) (last : Option PyErr),
      i < r →
      (∀ j, j ≤ i → ∃ e, op (attempt + j) = .error e ∧
        cfg.retryable e = true ∧
        (rateLimitReset e ≠ none ∨ attempt + j < cfg.max_retries)) →
      ∀ e, op (attempt + i) = .error e →
      (runRetryAux α cfg fname op clock attempt r [] last).sleeps.get? i =
        some (iterSleep cfg clock (attempt + i) e) := by
  intro i
  induction i with
  | zero =>
    intro attempt r last hir hall e he
    obtain ⟨r', rfl⟩ : ∃ r', r = r' + 1 := ⟨r - 1, by omega⟩
    obtain ⟨e0, he0, hr0, hc0⟩ := hall 0 (le_refl 0)
    rw [Nat.add_zero] at he he0 hc0 ⊢
    have heq : e0 = e := by
      have h := he0.symm.trans he
      injection h
    subst heq
    rw [runRetryAux_sleeps_cons α cfg fname op clock attempt r' last e0
      he0 hr0 hc0]
    simp
  | succ i ih =>
    intro attempt r last hir hall e he
    obtain ⟨r', rfl⟩ : ∃ r', r = r' + 1 := ⟨r - 1, by omega⟩
    obtain ⟨e0, he0, hr0, hc0⟩ := hall 0 (by omega)
    rw [Nat.add_zero] at he0 hc0
    rw [runRetryAux_sleeps_cons α cfg fname op clock attempt r' last e0
      he0 hr0 hc0]
    rw [List.get?_cons_succ]
    have hall' : ∀ j, j ≤ i → ∃ e', op (attempt + 1 + j) = .error e' ∧
        cfg.retryable e' = true ∧
        (rateLimitReset e' ≠ none ∨ attempt + 1 + j < cfg.max_retries) := by
      intro j hj
      obtain ⟨e', h1, h2, h3⟩ := hall (j + 1) (by omega)
      refine ⟨e', ?_, h2, ?_⟩
      · rw [show attempt + 1 + j = attempt + (j + 1) by omega]
        exact h1
      · rcases h3 with h | h
        · exact Or.inl h
        · exact Or.inr (by omega)
    have he' : op (attempt + 1 + i) = .error e := by
      rw [show attempt + 1 + i = attempt + (i + 1) by omega]
      exact he
    have hres := ih (attempt + 1) r' (some e0) (by omega) hall' e he'
    rw [show attempt + (i + 1) = attempt + 1 + i by omega]
    exact hres

/-- C4: when the failure of attempt `i` carries a rate-limit signal with a
nonzero reset timestamp, the sleep performed for that attempt is exactly
`max(resetAtTimestamp − now, 0)` — a rate-limit wait, not a backoff delay,
and the only sleep of that iteration. -/
theorem C4_rate_limit_wait (α : Type) (cfg : RetryConfig) (fname : String)
    (op : ℕ → Except PyErr α) (clock : ℕ → ℚ) (i : ℕ)
    (hi : i ≤ cfg.max_retries)
    (hall : ∀ j, j ≤ i → ∃ e, op j = .error e ∧ cfg.retryable e = true)
    (e : PyErr) (he : op i = .error e) (resetTime : ℕ)
    (hreset : rateLimitReset e = some resetTime) :
    (retryWithBackoff α cfg fname op clock).sleeps.get? i =
      some (.rateLimit (max ((resetTime : ℚ) - clock i) 0)) := by
  unfold retryWithBackoff
  have hall' : ∀ j, j ≤ i → ∃ e', op (0 + j) = .error e' ∧
      cfg.retryable e' = true ∧
      (rateLimitReset e' ≠ none ∨ 0 + j < cfg.max_retries) := by
    intro j hj
    obtain ⟨e', h1, h2⟩ := hall j hj
    refine ⟨e', by simpa using h1, h2, ?_⟩
    by_cases hji : j = i
    · subst hji
      have heq : e' = e := by
        have h := h1.symm.trans he
        injection h
      left
      rw [heq, hreset]
      simp
    · right
      omega
  have he' : op (0 + i) = .error e := by simpa using he
  have hres := retry_sleep_trace α cfg fname op clock i 0
    (cfg.max_retries + 1) none (by omega) hall' e he'
  simpa [iterSleep, hreset] using hres

/-- Witness for C4: a first failure carrying reset timestamp 5 sleeps
`max(5 − now, 0)`. -/
theorem C4_rate_limit_wait_witness :
    (0 ≤ (⟨2, 1, 60, 2, fun _ => true⟩ : RetryConfig).max_retries) ∧
    ((retryWithBackoff ℕ ⟨2, 1, 60, 2, fun _ => true⟩ "f"
      (fun _ => .error (.github 403 (some 5))) (fun _ => 0)).sleeps.get? 0 =
      some (.rateLimit (max ((5 : ℚ) - 0) 0))) :=
  ⟨by decide,
   C4_rate_limit_wait ℕ ⟨2, 1, 60, 2, fun _ => true⟩ "f"
     (fun _ => .error (.github 403 (some 5))) (fun _ => 0) 0 (by decide)
     (fun j hj => ⟨.github 403 (some 5), rfl, rfl⟩)
     (.github 403 (some 5)) rfl 5 rfl⟩

/-- C5: a retryable failure of attempt `i < maxRetries` without a
rate-limit signal sleeps exactly
`min(baseDelay * exponentialBase ^ i, maxDelay)` before the next attempt;
with `baseDelay = 1.0`, `exponentialBase = 2.0`, `maxRetries = 2`, the two
observed delays are exactly `1.0` and `2.0`. -/
theorem C5_backoff_delay (α : Type) (cfg : RetryConfig) (fname : String)
    (op : ℕ → Except PyErr α) (clock : ℕ → ℚ) :
    (∀ i, i < cfg.max_retries →
      (∀ j, j ≤ i → ∃ e, op j = .error e ∧ cfg.retryable e = true) →
      ∀ e, op i = .error e → rateLimitReset e = none →
      (retryWithBackoff α cfg fname op clock).sleeps.get? i =
        some (.backoff (min (cfg.base_delay * cfg.exponential_base ^ i)
          cfg.max_delay))) ∧
    ((retryWithBackoff ℕ ⟨2, 1, 60, 2, fun _ => true⟩ "g"
      (fun _ => .error (.other "x")) (fun _ => 0)).sleeps =
      [.backoff 1, .backoff 2]) := by
  constructor
  · intro i hi hall e he hrl
    unfold retryWithBackoff
    have hall' : ∀ j, j ≤ i → ∃ e', op (0 + j) = .error e' ∧
        cfg.retryable e' = true ∧
        (rateLimitReset e' ≠ none ∨ 0 + j < cfg.max_retries) := by
      intro j hj
      obtain ⟨e', h1, h2⟩ := hall j hj
      exact ⟨e', by simpa using h1, h2, Or.inr (by omega)⟩
    have he' : op (0 + i) = .error e := by simpa using he
    have hres := retry_sleep_trace α cfg fname op clock i 0
      (cfg.max_retries + 1) none (by omega) hall' e he'
    simpa [iterSleep, hrl] using hres
  · have h : (retryWithBackoff ℕ ⟨2, 1, 60, 2, fun _ => true⟩ "g"
        (fun _ => .error (.other "x")) (fun _ => 0)).sleeps =
        [.backoff (min ((1 : ℚ) * 2 ^ 0) 60),
         .backoff (min ((1 : ℚ) * 2 ^ 1) 60)] := rfl
    rw [h]
    have h1 : min ((1 : ℚ) * 2 ^ 0) 60 = 1 := by norm_num
    have h2 : min ((1 : ℚ) * 2 ^ 1) 60 = 2 := by norm_num
    rw [h1, h2]

/-- Witness for the general part of C5 at attempt 0 of a failing run. -/
theorem C5_backoff_delay_witness :
    (0 < 2) ∧
    ((retryWithBackoff ℕ ⟨2, 1, 60, 2, fun _ => true⟩ "g"
      (fun _ => .error (.other "x")) (fun _ => 0)).sleeps.get? 0 =
      some (.backoff (min ((1 : ℚ) * 2 ^ 0) 60))) :=
  ⟨by decide,
   (C5_backoff_delay ℕ ⟨2, 1, 60, 2, fun _ => true⟩ "g"
     (fun _ => .error (.other "x")) (fun _ => 0)).1 0 (by decide)
     (fun j hj => ⟨.other "x", rfl, rfl⟩) (.other "x") rfl rfl⟩

/-- C6: a failure not matching the `exceptions` classifier is not caught:
the operation is invoked exactly once, no sleep happens, and the original
failure propagates unchanged. -/
theorem C6_nonretryable_propagates (α : Type) (cfg : RetryConfig)
    (fname : String) (op : ℕ → Except PyErr α) (clock : ℕ → ℚ) (e : PyErr)
    (hop : op 0 = .error e) (hr : cfg.retryable e = false) :
    retryWithBackoff α cfg fname op clock = ⟨1, [], .uncaught e⟩ := by
  unfold retryWithBackoff
  simp [runRetryAux, hop, hr]

/-- Witness for C6 with a classifier that excludes non-GitHub errors. -/
theorem C6_nonretryable_propagates_witness :
    retryWithBackoff ℕ ⟨2, 1, 60, 2, fun er => match er with
      | .github _ _ => true
      | .other _ => false⟩ "h"
      (fun _ => .error (.other "bad")) (fun _ => 0) =
      ⟨1, [], .uncaught (.other "bad")⟩ :=
  C6_nonretryable_propagates ℕ ⟨2, 1, 60, 2, fun er => match er with
    | .github _ _ => true
    | .other _ => false⟩ "h"
    (fun _ => .error (.other "bad")) (fun _ => 0) (.other "bad") rfl rfl
